import Mathlib

/-!
Verification of the candidate-selection repository's core algorithms against
its specification.  Floating-point values are modelled as exact rationals
(`ℚ`), and the transcendental scoring curves as real-valued functions; machine
integer casts are modelled by explicit floor/saturation operations.
-/

/-! ## Race-probability kernel
Embedding of `expected_value_probabilities`
(`candidate-selection/src/criteria/performance.rs`).  The kernel reads, for
each selected `Performance`, its `success_rate()` and `latency_success()`;
`PerfInput` carries exactly those two values. -/

/-- The two values the race kernel reads from a `Performance`:
`latency_success()` (mean latency of successful responses) and
`success_rate()`. -/
structure PerfInput where
  latencySuccess : ℚ
  successRate : ℚ
deriving DecidableEq, Repr

/-- Running products of the failure factors, modelling the
`scan(1.0, |s, x| { *s *= x; Some(*s) })` iterator: `failProds a xs` is the
list of partial products `a*x₁, a*x₁*x₂, …`. -/
def failProds (a : ℚ) : List ℚ → List ℚ
  | [] => []
  | x :: xs => (a * x) :: failProds (a * x) xs

/-- Embedding of `expected_value_probabilities::<LIMIT>`: sort the
(index, input) pairs by ascending `latency_success`, take the cumulative
failure products shifted by an initial `1`, multiply positionally with the
success rates, and restore the original order (the inverse permutation is
applied by re-sorting the (index, probability) pairs by index). -/
def expectedValueProbabilities (LIMIT : ℕ) (selections : List PerfInput) : List ℚ :=
  let sorted := List.insertionSort
    (fun a b => a.2.latencySuccess ≤ b.2.latencySuccess) selections.enum
  let ss := sorted.map (fun x => x.2.successRate)
  let pf := failProds 1 (ss.map (fun s => 1 - s))
  let qs := (1 :: pf).take LIMIT
  let probs := List.zipWith (fun q s => q * s) qs ss
  (List.insertionSort (fun a b => a.1 ≤ b.1)
    (List.zip (sorted.map (fun x => x.1)) probs)).map (fun x => x.2)

lemma failProds_length (a : ℚ) (l : List ℚ) : (failProds a l).length = l.length := by
  induction l generalizing a with
  | nil => rfl
  | cons x xs ih => simp [failProds, ih]

lemma zipWith_failProds_sum (ss : List ℚ) (a : ℚ) :
    (List.zipWith (fun q s => q * s) (a :: failProds a (ss.map (fun s => 1 - s))) ss).sum
      = a - a * (ss.map (fun s => 1 - s)).prod := by
  induction ss generalizing a with
  | nil => simp
  | cons s tl ih =>
    simp only [List.map_cons, failProds, List.zipWith_cons_cons, List.sum_cons,
      List.prod_cons, ih (a * (1 - s))]
    ring

lemma zipWith_failProds_nonneg (ss : List ℚ) (a : ℚ) (ha : 0 ≤ a)
    (hs : ∀ s ∈ ss, 0 ≤ s ∧ s ≤ 1) :
    ∀ p ∈ List.zipWith (fun q s => q * s) (a :: failProds a (ss.map (fun s => 1 - s))) ss,
      0 ≤ p := by
  induction ss generalizing a with
  | nil => simp
  | cons s tl ih =>
    intro p hp
    simp only [List.map_cons, failProds, List.zipWith_cons_cons, List.mem_cons] at hp
    rcases hp with h | h
    · have hs0 := hs s (by simp)
      exact h ▸ mul_nonneg ha hs0.1
    · have hs0 := hs s (by simp)
      refine ih (a * (1 - s)) (mul_nonneg ha (by linarith [hs0.2])) ?_ p h
      intro t ht
      exact hs t (by simp [ht])

lemma zipWith_take_of_le {α β γ : Type} (f : α → β → γ) (l₁ : List α) (l₂ : List β)
    (n : ℕ) (h : l₂.length ≤ n) :
    List.zipWith f (l₁.take n) l₂ = List.zipWith f l₁ l₂ := by
  induction l₂ generalizing l₁ n with
  | nil => simp
  | cons b bs ih =>
    cases l₁ with
    | nil => simp
    | cons a as =>
      cases n with
      | zero => simp at h
      | succ m =>
        simp only [List.take_succ_cons, List.zipWith_cons_cons]
        rw [ih as m (by simpa using h)]

lemma map_snd_zip_of_length_eq {α β : Type} (l₁ : List α) (l₂ : List β)
    (h : l₁.length = l₂.length) :
    (List.zip l₁ l₂).map (fun x => x.2) = l₂ := by
  induction l₁ generalizing l₂ with
  | nil => cases l₂ <;> simp_all
  | cons a as ih =>
    cases l₂ with
    | nil => simp at h
    | cons b bs => simp [List.zip_cons_cons, ih bs (by simpa using h)]

/-- The kernel's output is a permutation of the positionally computed
probabilities over the latency-sorted inputs. -/
lemma evp_perm (LIMIT : ℕ) (selections : List PerfInput)
    (h : selections.length ≤ LIMIT) :
    (expectedValueProbabilities LIMIT selections).Perm
      (List.zipWith (fun q s => q * s)
        (1 :: failProds 1
          (((List.insertionSort
              (fun a b => a.2.latencySuccess ≤ b.2.latencySuccess) selections.enum).map
            (fun x => x.2.successRate)).map (fun s => 1 - s)))
        ((List.insertionSort
            (fun a b => a.2.latencySuccess ≤ b.2.latencySuccess) selections.enum).map
          (fun x => x.2.successRate))) := by
  unfold expectedValueProbabilities
  set sorted := List.insertionSort
    (fun a b => a.2.latencySuccess ≤ b.2.latencySuccess) selections.enum with hsorted
  set ss := sorted.map (fun x => x.2.successRate) with hss
  have hsortlen : sorted.length = selections.length := by
    rw [hsorted, (List.perm_insertionSort _ selections.enum).length_eq, List.enum_length]
  have hsslen : ss.length = selections.length := by simp [hss, hsortlen]
  have htake : List.zipWith (fun q s => q * s)
      ((1 :: failProds 1 (ss.map (fun s => 1 - s))).take LIMIT) ss
      = List.zipWith (fun q s => q * s) (1 :: failProds 1 (ss.map (fun s => 1 - s))) ss := by
    exact zipWith_take_of_le _ _ _ _ (hsslen ▸ h)
  simp only [htake]
  set probs := List.zipWith (fun q s => q * s)
    (1 :: failProds 1 (ss.map (fun s => 1 - s))) ss with hprobs
  have hplen : probs.length = selections.length := by
    rw [hprobs]
    simp only [List.length_zipWith, List.length_cons, failProds_length, List.length_map]
    omega
  have hperm := (List.perm_insertionSort (fun a b : ℕ × ℚ => a.1 ≤ b.1)
    (List.zip (sorted.map (fun x => x.1)) probs)).map (fun x => x.2)
  rw [map_snd_zip_of_length_eq _ _ (by simp [hsortlen, hplen])] at hperm
  exact hperm

lemma evp_length (LIMIT : ℕ) (selections : List PerfInput)
    (h : selections.length ≤ LIMIT) :
    (expectedValueProbabilities LIMIT selections).length = selections.length := by
  rw [(evp_perm LIMIT selections h).length_eq, List.length_zipWith]
  have hsortlen : (List.insertionSort
      (fun a b : ℕ × PerfInput => a.2.latencySuccess ≤ b.2.latencySuccess)
      selections.enum).length = selections.length := by
    rw [(List.perm_insertionSort _ _).length_eq, List.enum_length]
  simp only [List.length_cons, failProds_length, List.length_map, hsortlen]
  omega

lemma sorted_successRates_perm (selections : List PerfInput) :
    (((List.insertionSort
        (fun a b : ℕ × PerfInput => a.2.latencySuccess ≤ b.2.latencySuccess)
        selections.enum).map (fun x => x.2.successRate))).Perm
      (selections.map (fun x => x.successRate)) := by
  have h := (List.perm_insertionSort
    (fun a b : ℕ × PerfInput => a.2.latencySuccess ≤ b.2.latencySuccess)
    selections.enum).map (fun x => x.2.successRate)
  have h2 : selections.enum.map (fun x => x.2.successRate)
      = selections.map (fun x => x.successRate) := by
    rw [show (fun x : ℕ × PerfInput => x.2.successRate)
        = (fun x : PerfInput => x.successRate) ∘ Prod.snd from rfl]
    rw [← List.map_map, List.enum_map_snd]
  exact h.trans (h2 ▸ List.Perm.refl _)

/-- Sum of the kernel's probabilities: `1 - ∏ (1 - sᵢ)`. -/
theorem evp_sum (LIMIT : ℕ) (selections : List PerfInput)
    (h : selections.length ≤ LIMIT) :
    (expectedValueProbabilities LIMIT selections).sum
      = 1 - ((selections.map (fun x => x.successRate)).map (fun s => 1 - s)).prod := by
  rw [(evp_perm LIMIT selections h).sum_eq, zipWith_failProds_sum]
  rw [((sorted_successRates_perm selections).map (fun s => 1 - s)).prod_eq]
  ring

/-- Every probability returned by the kernel is non-negative, given success
rates in [0, 1]. -/
theorem evp_nonneg (LIMIT : ℕ) (selections : List PerfInput)
    (h : selections.length ≤ LIMIT)
    (hs : ∀ x ∈ selections, 0 ≤ x.successRate ∧ x.successRate ≤ 1) :
    ∀ p ∈ expectedValueProbabilities LIMIT selections, 0 ≤ p := by
  intro p hp
  have hp' := (evp_perm LIMIT selections h).mem_iff.mp hp
  refine zipWith_failProds_nonneg _ 1 (by norm_num) ?_ p hp'
  intro s hsmem
  have := (sorted_successRates_perm selections).mem_iff.mp hsmem
  obtain ⟨x, hx, rfl⟩ := List.mem_map.mp this
  exact hs x hx

/-- The three performance inputs of the spec's scenario S1: success rates
[0.99, 0.5, 0.8] with successful-response latencies [50, 20, 200] ms. -/
def inputS1 : List PerfInput := [⟨50, 99/100⟩, ⟨20, 1/2⟩, ⟨200, 4/5⟩]

lemma evp_inputS1 : expectedValueProbabilities 3 inputS1 = [99/200, 1/2, 1/250] := by
  norm_num [expectedValueProbabilities, inputS1, List.insertionSort, List.orderedInsert,
    failProds, List.enum, List.enumFrom, List.zip, List.zipWith, List.take]

/-- C2: on success rates [0.99, 0.5, 0.8] with latencies [50, 20, 200] ms, the
race kernel returns probabilities within 1e-4 of [0.495, 0.5, 0.004] in the
original input order, and the harmonic aggregate latency (Σ pᵢ/lᵢ)⁻¹ computed
from those probabilities is within 0.02 of 28.62 ms. -/
theorem claim_C2_race_probabilities_example :
    |(expectedValueProbabilities 3 inputS1).getD 0 0 - 495/1000| ≤ 1/10000 ∧
    |(expectedValueProbabilities 3 inputS1).getD 1 0 - 5/10| ≤ 1/10000 ∧
    |(expectedValueProbabilities 3 inputS1).getD 2 0 - 4/1000| ≤ 1/10000 ∧
    |((expectedValueProbabilities 3 inputS1).getD 0 0 / 50
      + (expectedValueProbabilities 3 inputS1).getD 1 0 / 20
      + (expectedValueProbabilities 3 inputS1).getD 2 0 / 200)⁻¹ - 2862/100| ≤ 2/100 := by
  rw [evp_inputS1]
  norm_num [abs_le]

/-- C5: for every input of K (latency, success-rate) pairs with 1 ≤ K ≤ LIMIT
and success rates in [0, 1], every probability returned by
`expected_value_probabilities` is non-negative, and the probabilities sum to at
most 1, with equality exactly when some success rate equals 1. -/
theorem claim_C5_race_probabilities_bounds (LIMIT : ℕ) (selections : List PerfInput)
    (hK : 1 ≤ selections.length) (hLIM : selections.length ≤ LIMIT)
    (hs : ∀ x ∈ selections, 0 ≤ x.successRate ∧ x.successRate ≤ 1) :
    (∀ p ∈ expectedValueProbabilities LIMIT selections, 0 ≤ p) ∧
    (expectedValueProbabilities LIMIT selections).sum ≤ 1 ∧
    ((expectedValueProbabilities LIMIT selections).sum = 1 ↔
      ∃ x ∈ selections, x.successRate = 1) := by
  have hprodnn : 0 ≤ ((selections.map (fun x => x.successRate)).map (fun s => 1 - s)).prod := by
    apply List.prod_nonneg
    intro a ha
    obtain ⟨s, hsmem, rfl⟩ := List.mem_map.mp ha
    obtain ⟨x, hx, rfl⟩ := List.mem_map.mp hsmem
    linarith [(hs x hx).2]
  refine ⟨evp_nonneg LIMIT selections hLIM hs, ?_, ?_⟩
  · rw [evp_sum LIMIT selections hLIM]
    linarith
  · rw [evp_sum LIMIT selections hLIM]
    constructor
    · intro hsum
      have hprod : ((selections.map (fun x => x.successRate)).map (fun s => 1 - s)).prod = 0 := by
        linarith
      rw [List.prod_eq_zero_iff] at hprod
      obtain ⟨s, hsmem, hz⟩ := List.mem_map.mp hprod
      obtain ⟨x, hx, rfl⟩ := List.mem_map.mp hsmem
      exact ⟨x, hx, by linarith⟩
    · rintro ⟨x, hx, hx1⟩
      have hprod : ((selections.map (fun x => x.successRate)).map (fun s => 1 - s)).prod = 0 := by
        rw [List.prod_eq_zero_iff]
        refine List.mem_map.mpr ⟨x.successRate, List.mem_map.mpr ⟨x, hx, rfl⟩, by rw [hx1]; ring⟩
      rw [hprod]
      ring

/-- Witness for C5 at the S1 inputs. -/
theorem claim_C5_witness :
    (∀ p ∈ expectedValueProbabilities 3 inputS1, 0 ≤ p) ∧
    (expectedValueProbabilities 3 inputS1).sum ≤ 1 ∧
    ((expectedValueProbabilities 3 inputS1).sum = 1 ↔
      ∃ x ∈ inputS1, x.successRate = 1) :=
  claim_C5_race_probabilities_bounds 3 inputS1 (by norm_num [inputS1])
    (by norm_num [inputS1]) (by norm_num [inputS1])

/-! ## Generic greedy selector
Embedding of `select` in `candidate-selection/src/lib.rs`.  The `Candidate`
trait is modelled as a record of functions; `u64` ids become `ℕ`,
`Normalized`/f64 values become `ℚ`. -/

/-- The `Candidate` trait of `candidate-selection/src/lib.rs`. -/
structure CandidateImpl (α : Type) where
  id : α → ℕ
  fee : α → ℚ
  score : α → ℚ
  scoreMany : List α → ℚ

/-- The `marginal_score` closure: `score_many` of the selection extended with
the candidate, minus the current score. -/
def marginalScore {α : Type} (impl : CandidateImpl α) (currentScore : ℚ)
    (selected : List α) (candidate : α) : ℚ :=
  impl.scoreMany (selected ++ [candidate]) - currentScore

/-- The key used in the selector's `max_by_key`: the raw marginal score for a
zero-fee candidate, otherwise the marginal score divided by the fee. -/
def selKey {α : Type} (impl : CandidateImpl α) (currentScore : ℚ)
    (selected : List α) (c : α) : ℚ :=
  if impl.fee c = 0 then marginalScore impl currentScore selected c
  else marginalScore impl currentScore selected c / impl.fee c

/-- Rust's `Iterator::max_by_key`: `none` on an empty iterator, otherwise the
last element attaining the maximal key. -/
def maxByKey {α : Type} (key : α → ℚ) : List α → Option α
  | [] => none
  | x :: xs =>
    match maxByKey key xs with
    | none => some x
    | some y => if key y < key x then some x else some y

/-- The candidates passing the deduplication filter: none of the already
selected candidates shares their `id()`. -/
def eligible {α : Type} (impl : CandidateImpl α) (candidates selected : List α) : List α :=
  candidates.filter (fun c => selected.all (fun s => impl.id s != impl.id c))

/-- One iteration of the greedy loop: `max_by_key` over the eligible
candidates, then the fee filter (`true` when the current score is zero,
otherwise `fee ≤ 0.5 * (marginal / current)`). -/
def selectStep {α : Type} (impl : CandidateImpl α) (candidates selected : List α)
    (currentScore : ℚ) : Option α :=
  match maxByKey (selKey impl currentScore selected) (eligible impl candidates selected) with
  | none => none
  | some c =>
    if currentScore = 0 then some c
    else if impl.fee c ≤ 1/2 * (marginalScore impl currentScore selected c / currentScore)
    then some c
    else none

/-- The `current_score` of the loop: 0 for an empty selection, the individual
score for a singleton, `score_many` otherwise. -/
def currentScoreOf {α : Type} (impl : CandidateImpl α) (selected : List α) : ℚ :=
  match selected with
  | [] => 0
  | [c] => impl.score c
  | _ => impl.scoreMany selected

/-- The selector's `while selected.len() < LIMIT` loop, with the remaining
capacity as fuel. -/
def selectGo {α : Type} (impl : CandidateImpl α) (candidates : List α) :
    ℕ → List α → List α
  | 0, selected => selected
  | fuel + 1, selected =>
    match selectStep impl candidates selected (currentScoreOf impl selected) with
    | some c => selectGo impl candidates fuel (selected ++ [c])
    | none => selected

/-- Embedding of `select::<Candidate, LIMIT>` from
`candidate-selection/src/lib.rs`. -/
def select {α : Type} (LIMIT : ℕ) (impl : CandidateImpl α) (candidates : List α) :
    List α :=
  selectGo impl candidates LIMIT []

lemma maxByKey_mem {α : Type} (key : α → ℚ) (l : List α) (c : α)
    (h : maxByKey key l = some c) : c ∈ l := by
  induction l with
  | nil => simp [maxByKey] at h
  | cons x xs ih =>
    simp only [maxByKey] at h
    cases hm : maxByKey key xs with
    | none => rw [hm] at h; simp_all
    | some y =>
      rw [hm] at h
      dsimp only at h
      by_cases hk : key y < key x
      · simp [hk] at h; simp [h]
      · simp [hk] at h
        exact List.mem_cons_of_mem x (ih (h ▸ hm))

lemma maxByKey_isSome {α : Type} (key : α → ℚ) (l : List α) (h : l ≠ []) :
    ∃ c, maxByKey key l = some c := by
  cases l with
  | nil => exact absurd rfl h
  | cons x xs =>
    simp only [maxByKey]
    cases hm : maxByKey key xs with
    | none => exact ⟨x, rfl⟩
    | some y =>
      by_cases hk : key y < key x
      · exact ⟨x, by simp [hk]⟩
      · exact ⟨y, by simp [hk]⟩

lemma maxByKey_le {α : Type} (key : α → ℚ) (l : List α) :
    ∀ (c : α), maxByKey key l = some c → ∀ d ∈ l, key d ≤ key c := by
  induction l with
  | nil => intro c h; simp [maxByKey] at h
  | cons x xs ih =>
    intro c h d hd
    simp only [maxByKey] at h
    cases hm : maxByKey key xs with
    | none =>
      rw [hm] at h
      have hxs : xs = [] := by
        cases xs with
        | nil => rfl
        | cons a as =>
          obtain ⟨e, he⟩ := maxByKey_isSome key (a :: as) (by simp)
          simp [he] at hm
      subst hxs
      simp only [Option.some.injEq] at h
      subst h
      simp at hd
      simp [hd]
    | some y =>
      rw [hm] at h
      dsimp only at h
      by_cases hk : key y < key x
      · rw [if_pos hk] at h
        simp only [Option.some.injEq] at h
        subst h
        rcases List.mem_cons.mp hd with rfl | hdm
        · exact le_refl _
        · exact le_of_lt (lt_of_le_of_lt (ih y hm d hdm) hk)
      · rw [if_neg hk] at h
        simp only [Option.some.injEq] at h
        subst h
        rcases List.mem_cons.mp hd with rfl | hdm
        · exact not_lt.mp hk
        · exact ih _ hm d hdm

lemma selectStep_mem {α : Type} (impl : CandidateImpl α) (candidates selected : List α)
    (currentScore : ℚ) (c : α)
    (h : selectStep impl candidates selected currentScore = some c) :
    c ∈ candidates := by
  unfold selectStep at h
  cases hm : maxByKey (selKey impl currentScore selected)
    (eligible impl candidates selected) with
  | none => rw [hm] at h; simp at h
  | some y =>
    rw [hm] at h
    dsimp only at h
    have hy : y ∈ eligible impl candidates selected := maxByKey_mem _ _ _ hm
    have hy' : y ∈ candidates := List.mem_filter.mp hy |>.1
    by_cases h0 : currentScore = 0
    · rw [if_pos h0] at h
      simp only [Option.some.injEq] at h
      exact h ▸ hy'
    · by_cases hf : impl.fee y ≤ 1/2 * (marginalScore impl currentScore selected y / currentScore)
      · rw [if_neg h0, if_pos hf] at h
        simp only [Option.some.injEq] at h
        exact h ▸ hy'
      · rw [if_neg h0, if_neg hf] at h
        simp at h

lemma selectGo_mem {α : Type} (impl : CandidateImpl α) (candidates : List α)
    (fuel : ℕ) (selected : List α) (x : α)
    (hx : x ∈ selectGo impl candidates fuel selected) :
    x ∈ selected ∨ x ∈ candidates := by
  induction fuel generalizing selected with
  | zero => exact Or.inl hx
  | succ n ih =>
    simp only [selectGo] at hx
    cases hs : selectStep impl candidates selected (currentScoreOf impl selected) with
    | none => rw [hs] at hx; exact Or.inl hx
    | some c =>
      rw [hs] at hx
      rcases ih (selected ++ [c]) hx with hin | hin
      · rcases List.mem_append.mp hin with hin' | hin'
        · exact Or.inl hin'
        · simp at hin'
          exact Or.inr (hin' ▸ selectStep_mem impl candidates selected _ c hs)
      · exact Or.inr hin

lemma selectGo_length_le {α : Type} (impl : CandidateImpl α) (candidates : List α)
    (fuel : ℕ) (selected : List α) :
    selected.length ≤ (selectGo impl candidates fuel selected).length := by
  induction fuel generalizing selected with
  | zero => exact le_refl _
  | succ n ih =>
    simp only [selectGo]
    cases hs : selectStep impl candidates selected (currentScoreOf impl selected) with
    | none => exact le_refl _
    | some c =>
      calc selected.length ≤ (selected ++ [c]).length := by simp
        _ ≤ _ := ih (selected ++ [c])

/-! ## The selector as §4.5 of the specification words it
A second definition, written from the specification's pseudocode, to compare
with `select` embedded from the source: key = marginal / max(0.01, fee), and
the argmax is appended only when its marginal gain is strictly positive. -/

/-- The selection key as the specification states it: the marginal gain
divided by `max(0.01, fee)`. -/
def selKeySpec {α : Type} (impl : CandidateImpl α) (currentScore : ℚ)
    (selected : List α) (c : α) : ℚ :=
  marginalScore impl currentScore selected c / max (1/100) (impl.fee c)

/-- One round of the specification's pseudocode: pick the argmax of the
spec key, requiring a strictly positive marginal gain. -/
def selectStepSpec {α : Type} (impl : CandidateImpl α) (candidates selected : List α)
    (currentScore : ℚ) : Option α :=
  match maxByKey (selKeySpec impl currentScore selected) (eligible impl candidates selected) with
  | none => none
  | some c =>
    if 0 < marginalScore impl currentScore selected c then some c else none

/-- The specification's greedy loop. -/
def selectSpecGo {α : Type} (impl : CandidateImpl α) (candidates : List α) :
    ℕ → List α → List α
  | 0, selected => selected
  | fuel + 1, selected =>
    match selectStepSpec impl candidates selected (currentScoreOf impl selected) with
    | some c => selectSpecGo impl candidates fuel (selected ++ [c])
    | none => selected

/-- The selector as the specification's §4.5 pseudocode describes it. -/
def selectSpec {α : Type} (LIMIT : ℕ) (impl : CandidateImpl α) (candidates : List α) :
    List α :=
  selectSpecGo impl candidates LIMIT []

/-- A two-candidate instance of the `Candidate` trait separating the source's
selector from the specification's: candidate 0 has zero fee and individual
score 1/2, candidate 1 has fee 1/50 and score 1/4, and adding a second
candidate never raises the combined score. -/
def implC1 : CandidateImpl ℕ where
  id := fun c => c
  fee := fun c => if c = 1 then 1/50 else 0
  score := fun c => if c = 0 then 1/2 else if c = 1 then 1/4 else 0
  scoreMany := fun cs =>
    if cs = [0] then 1/2 else if cs = [1] then 1/4
    else if cs = [1, 0] then 1/4 else if cs = [0, 1] then 1/2 else 0

/-- C1 (counterexample): the source's selector keys a zero-fee candidate by its
raw marginal gain (not marginal / max(0.01, fee)) and appends candidates with
non-positive marginal gain, so on this input it returns [1, 0] while the loop
of the claim returns [0]. -/
theorem claim_C1_counterexample :
    select 2 implC1 [0, 1] = [1, 0] ∧ selectSpec 2 implC1 [0, 1] = [0] := by
  constructor
  · norm_num [select, selectGo, selectStep, currentScoreOf, eligible, maxByKey, selKey,
      marginalScore, implC1]
  · norm_num [selectSpec, selectSpecGo, selectStepSpec, currentScoreOf, eligible, maxByKey,
      selKeySpec, marginalScore, implC1]

/-- C1 (amended): in each round, the selection key of a candidate c is its raw
marginal gain when c.fee() = 0 and marginal gain / c.fee() otherwise; the
argmax candidate is appended exactly when the current combined score is zero
or its fee is at most half its marginal gain divided by the current combined
score; otherwise the loop breaks. -/
theorem claim_C1_amended_step {α : Type} (impl : CandidateImpl α)
    (candidates selected : List α) (currentScore : ℚ) (c : α)
    (h : selectStep impl candidates selected currentScore = some c) :
    c ∈ eligible impl candidates selected ∧
    (∀ d ∈ eligible impl candidates selected,
      selKey impl currentScore selected d ≤ selKey impl currentScore selected c) ∧
    (currentScore = 0 ∨
      impl.fee c ≤ 1/2 * (marginalScore impl currentScore selected c / currentScore)) := by
  unfold selectStep at h
  cases hm : maxByKey (selKey impl currentScore selected)
    (eligible impl candidates selected) with
  | none => rw [hm] at h; simp at h
  | some y =>
    rw [hm] at h
    dsimp only at h
    by_cases h0 : currentScore = 0
    · rw [if_pos h0] at h
      simp only [Option.some.injEq] at h
      subst h
      exact ⟨maxByKey_mem _ _ _ hm, maxByKey_le _ _ _ hm, Or.inl h0⟩
    · by_cases hf : impl.fee y ≤ 1/2 * (marginalScore impl currentScore selected y / currentScore)
      · rw [if_neg h0, if_pos hf] at h
        simp only [Option.some.injEq] at h
        subst h
        exact ⟨maxByKey_mem _ _ _ hm, maxByKey_le _ _ _ hm, Or.inr hf⟩
      · rw [if_neg h0, if_neg hf] at h
        simp at h

/-- Witness for the amended C1: the first greedy round on `implC1` selects
candidate 1, an eligible key-maximiser, with the current score zero. -/
theorem claim_C1_amended_witness :
    (1 : ℕ) ∈ eligible implC1 [0, 1] [] ∧
    (∀ d ∈ eligible implC1 [0, 1] [],
      selKey implC1 0 [] d ≤ selKey implC1 0 [] 1) ∧
    ((0 : ℚ) = 0 ∨ implC1.fee 1 ≤ 1/2 * (marginalScore implC1 0 [] 1 / 0)) :=
  claim_C1_amended_step implC1 [0, 1] [] 0 1
    (by norm_num [selectStep, eligible, maxByKey, selKey, marginalScore, implC1])

/-- A one-candidate instance whose only candidate has individual score 0. -/
def implC4 : CandidateImpl ℕ where
  id := fun c => c
  fee := fun _ => 0
  score := fun _ => 0
  scoreMany := fun _ => 0

/-- C4 (counterexample): with a single candidate of individual score 0, the
selector still returns it (the fee filter passes every argmax while the
current combined score is zero), so not every element of `select(C)` has a
strictly positive individual score. -/
theorem claim_C4_counterexample :
    select 1 implC4 [0] = [0] ∧ implC4.score 0 = 0 := by
  constructor
  · norm_num [select, selectGo, selectStep, currentScoreOf, eligible, maxByKey, selKey,
      marginalScore, implC4]
  · rfl

/-- C4 (amended): every element of `select(C)` comes from C, hence has a
non-negative individual score whenever all candidates do (zero-score
candidates can be returned). -/
theorem claim_C4_amended {α : Type} (LIMIT : ℕ) (impl : CandidateImpl α)
    (candidates : List α) (h : ∀ c ∈ candidates, 0 ≤ impl.score c) :
    ∀ x ∈ select LIMIT impl candidates, 0 ≤ impl.score x := by
  intro x hx
  rcases selectGo_mem impl candidates LIMIT [] x hx with h0 | h0
  · simp at h0
  · exact h x h0

/-- Witness for the amended C4 at `implC1`: candidate 1 is returned by the
selector and its score is non-negative. -/
theorem claim_C4_amended_witness : 0 ≤ implC1.score 1 :=
  claim_C4_amended 2 implC1 [0, 1] (by norm_num [implC1]) 1
    (by norm_num [select, selectGo, selectStep, currentScoreOf, eligible, maxByKey, selKey,
      marginalScore, implC1])

/-! ## Randomized selector
Embedding of `select` in `src/lib.rs` of the root crate (the revision taking
an `Rng` and a `min_score_cutoff`).  The weighted random choice is modelled by
an arbitrary chooser `pick : ℕ → ℕ`: the t-th `choose_weighted` call returns
the element at index `pick t` modulo the list length, which covers every
choice an `Rng` can make.  The `choose_weighted(..).unwrap()` on an empty
slice (a panic the proved hypotheses rule out) is modelled as returning the
empty selection. -/

/-- The `Candidate` trait of the root crate's `src/lib.rs`: `id`, `score` and
`score_many` (no fee). -/
structure CandidateImpl2 (α : Type) where
  id : α → ℕ
  score : α → ℚ
  scoreMany : List α → ℚ

/-- Insertion into the `BTreeMap<Id, (Candidate, Normalized)>`: ordered by
id, later insertions overwriting an equal key. -/
def btreeInsert {α : Type} (k : ℕ) (v : α × ℚ) :
    List (ℕ × α × ℚ) → List (ℕ × α × ℚ)
  | [] => [(k, v)]
  | (k', v') :: rest =>
    if k < k' then (k, v) :: (k', v') :: rest
    else if k = k' then (k, v) :: rest
    else (k', v') :: btreeInsert k v rest

/-- The map collected from the candidates with strictly positive score. -/
def collectPositive {α : Type} (impl : CandidateImpl2 α) (candidates : List α) :
    List (ℕ × α × ℚ) :=
  candidates.foldl
    (fun m c => if 0 < impl.score c then btreeInsert (impl.id c) (c, impl.score c) m else m)
    []

/-- The sampling loop of the randomized selector: up to `sample_limit` (the
fuel) rounds, each pushing a weighted-random candidate and keeping it exactly
when it raises `score_many` above the first selection's score. -/
def select2Loop {α : Type} (impl : CandidateImpl2 α) (pick : ℕ → ℕ) (LIMIT : ℕ)
    (combinedScore : ℚ) : ℕ → ℕ → List α → List (α × ℚ) → List α
  | 0, _, selections, _ => selections
  | fuel + 1, t, selections, candidates =>
    match candidates with
    | [] => selections
    | c0 :: cs =>
      if selections.length = LIMIT then selections
      else
        let picked := (c0 :: cs).get ⟨pick t % (c0 :: cs).length, Nat.mod_lt _ (Nat.succ_pos _)⟩
        if combinedScore < impl.scoreMany (selections ++ [picked.1]) then
          select2Loop impl pick LIMIT combinedScore fuel (t + 1) (selections ++ [picked.1])
            ((c0 :: cs).filter (fun x => impl.id x.1 != impl.id picked.1))
        else
          select2Loop impl pick LIMIT combinedScore fuel (t + 1) selections (c0 :: cs)

/-- The max score over the map's values, `candidates.values().map(score).max()`,
with the head value as the fold's start. -/
def select2MaxScore {α : Type} (e : ℕ × α × ℚ) (es : List (ℕ × α × ℚ)) : ℚ :=
  ((e :: es).map (fun x => x.2.2)).foldl max e.2.2

/-- The `Vec` of (candidate, score) pairs remaining after the cutoff filter
`score ≥ max_score * min_score_cutoff`, in map order. -/
def select2Vec {α : Type} (m : List (ℕ × α × ℚ)) (minScoreCutoff : ℚ) :
    List (α × ℚ) :=
  match m with
  | [] => []
  | e :: es =>
    ((e :: es).filter
      (fun x => select2MaxScore e es * minScoreCutoff ≤ x.2.2)).map (fun x => x.2)

/-- The randomized selector after the deduplicating, zero-score-dropping
collection into the map: pick a first selection from the post-cutoff vector,
then run the sampling loop. -/
def select2Core {α : Type} (LIMIT : ℕ) (impl : CandidateImpl2 α) (pick : ℕ → ℕ)
    (m : List (ℕ × α × ℚ)) (minScoreCutoff : ℚ) : List α :=
  match select2Vec m minScoreCutoff with
  | [] => []
  | v :: vs =>
    let fs := (v :: vs).get ⟨pick 0 % (v :: vs).length, Nat.mod_lt _ (Nat.succ_pos _)⟩
    let candidates := (v :: vs).filter (fun x => impl.id x.1 != impl.id fs.1)
    let sampleLimit := min candidates.length (LIMIT * 5)
    select2Loop impl pick LIMIT fs.2 sampleLimit 1 [fs.1] candidates

/-- Embedding of the root crate's `select::<Rng, Candidate, _, LIMIT>`. -/
def select2 {α : Type} (LIMIT : ℕ) (impl : CandidateImpl2 α) (pick : ℕ → ℕ)
    (candidates : List α) (minScoreCutoff : ℚ) : List α :=
  select2Core LIMIT impl pick (collectPositive impl candidates) minScoreCutoff

lemma btreeInsert_ne_nil {α : Type} (k : ℕ) (v : α × ℚ) (m : List (ℕ × α × ℚ)) :
    btreeInsert k v m ≠ [] := by
  cases m with
  | nil => simp [btreeInsert]
  | cons e rest =>
    obtain ⟨k', v'⟩ := e
    unfold btreeInsert
    by_cases h1 : k < k'
    · simp [h1]
    · by_cases h2 : k = k'
      · simp [h1, h2]
      · simp [h1, h2]

lemma collectPositive_foldl_ne_nil {α : Type} (impl : CandidateImpl2 α)
    (l : List α) (m : List (ℕ × α × ℚ)) (hm : m ≠ []) :
    l.foldl
      (fun m c => if 0 < impl.score c then btreeInsert (impl.id c) (c, impl.score c) m else m)
      m ≠ [] := by
  induction l generalizing m with
  | nil => exact hm
  | cons c cs ih =>
    simp only [List.foldl_cons]
    by_cases hc : 0 < impl.score c
    · rw [if_pos hc]
      exact ih _ (btreeInsert_ne_nil _ _ _)
    · rw [if_neg hc]
      exact ih _ hm

lemma collectPositive_ne_nil {α : Type} (impl : CandidateImpl2 α) (candidates : List α)
    (h : ∃ c ∈ candidates, 0 < impl.score c) :
    collectPositive impl candidates ≠ [] := by
  unfold collectPositive
  obtain ⟨c, hc, hcpos⟩ := h
  have main : ∀ (l : List α) (m : List (ℕ × α × ℚ)), (∃ c ∈ l, 0 < impl.score c) ∨ m ≠ [] →
      l.foldl
        (fun m c => if 0 < impl.score c then btreeInsert (impl.id c) (c, impl.score c) m else m)
        m ≠ [] := by
    intro l
    induction l with
    | nil =>
      intro m hm
      rcases hm with h | h
      · simp at h
      · exact h
    | cons x xs ih =>
      intro m hm
      simp only [List.foldl_cons]
      by_cases hx : 0 < impl.score x
      · rw [if_pos hx]
        exact collectPositive_foldl_ne_nil impl xs _ (btreeInsert_ne_nil _ _ _)
      · rw [if_neg hx]
        refine ih m ?_
        rcases hm with h | h
        · obtain ⟨d, hd, hdpos⟩ := h
          rcases List.mem_cons.mp hd with rfl | hd'
          · exact absurd hdpos hx
          · exact Or.inl ⟨d, hd', hdpos⟩
        · exact Or.inr h
  exact main candidates [] (Or.inl ⟨c, hc, hcpos⟩)

lemma select2Loop_length {α : Type} (impl : CandidateImpl2 α) (pick : ℕ → ℕ) (LIMIT : ℕ)
    (combinedScore : ℚ) (fuel : ℕ) :
    ∀ (t : ℕ) (selections : List α) (candidates : List (α × ℚ)),
      1 ≤ selections.length →
      1 ≤ (select2Loop impl pick LIMIT combinedScore fuel t selections candidates).length := by
  induction fuel with
  | zero => intro t selections candidates h; exact h
  | succ n ih =>
    intro t selections candidates h
    unfold select2Loop
    cases candidates with
    | nil => exact h
    | cons c0 cs =>
      by_cases hl : selections.length = LIMIT
      · simp only [if_pos hl]; exact h
      · simp only [if_neg hl]
        by_cases hs : combinedScore < impl.scoreMany (selections ++
            [((c0 :: cs).get ⟨pick t % (c0 :: cs).length, Nat.mod_lt _ (Nat.succ_pos _)⟩).1])
        · rw [if_pos hs]
          exact ih _ _ _ (by simp)
        · rw [if_neg hs]
          exact ih _ _ _ h

lemma foldl_max_init_le (l : List ℚ) (a : ℚ) : a ≤ l.foldl max a := by
  induction l generalizing a with
  | nil => exact le_refl a
  | cons x xs ih => exact le_trans (le_max_left a x) (ih (max a x))

lemma foldl_max_mem (l : List ℚ) (a : ℚ) : l.foldl max a = a ∨ l.foldl max a ∈ l := by
  induction l generalizing a with
  | nil => exact Or.inl rfl
  | cons x xs ih =>
    rcases ih (max a x) with h | h
    · rcases le_total a x with hax | hxa
      · right
        rw [List.foldl_cons, h, max_eq_right hax]
        exact List.mem_cons_self x xs
      · left
        rw [List.foldl_cons, h, max_eq_left hxa]
    · right
      rw [List.foldl_cons]
      exact List.mem_cons_of_mem x h

lemma btreeInsert_mem {α : Type} (x : ℕ × α × ℚ) (k : ℕ) (v : α × ℚ)
    (m : List (ℕ × α × ℚ)) (h : x ∈ btreeInsert k v m) : x = (k, v) ∨ x ∈ m := by
  induction m with
  | nil =>
    simp only [btreeInsert, List.mem_singleton] at h
    exact Or.inl h
  | cons e rest ih =>
    obtain ⟨k', v'⟩ := e
    unfold btreeInsert at h
    by_cases h1 : k < k'
    · rw [if_pos h1] at h
      rcases List.mem_cons.mp h with h' | h'
      · exact Or.inl h'
      · exact Or.inr h'
    · rw [if_neg h1] at h
      by_cases h2 : k = k'
      · rw [if_pos h2] at h
        rcases List.mem_cons.mp h with h' | h'
        · exact Or.inl h'
        · exact Or.inr (List.mem_cons_of_mem _ h')
      · rw [if_neg h2] at h
        rcases List.mem_cons.mp h with h' | h'
        · exact Or.inr (h' ▸ List.mem_cons_self _ _)
        · rcases ih h' with h'' | h''
          · exact Or.inl h''
          · exact Or.inr (List.mem_cons_of_mem _ h'')

lemma collectPositive_pos {α : Type} (impl : CandidateImpl2 α) (candidates : List α) :
    ∀ x ∈ collectPositive impl candidates, 0 < x.2.2 := by
  unfold collectPositive
  have main : ∀ (l : List α) (m : List (ℕ × α × ℚ)), (∀ x ∈ m, 0 < x.2.2) →
      ∀ x ∈ l.foldl
        (fun m c => if 0 < impl.score c then btreeInsert (impl.id c) (c, impl.score c) m else m)
        m, 0 < x.2.2 := by
    intro l
    induction l with
    | nil => intro m hm; exact hm
    | cons c cs ih =>
      intro m hm
      simp only [List.foldl_cons]
      by_cases hc : 0 < impl.score c
      · rw [if_pos hc]
        refine ih _ ?_
        intro x hx
        rcases btreeInsert_mem x _ _ _ hx with h | h
        · rw [h]; exact hc
        · exact hm x h
      · rw [if_neg hc]
        exact ih m hm
  exact main candidates [] (by simp)

lemma select2Vec_ne_nil {α : Type} (m : List (ℕ × α × ℚ)) (minScoreCutoff : ℚ)
    (hm : m ≠ []) (hpos : ∀ x ∈ m, 0 < x.2.2) (hcut1 : minScoreCutoff ≤ 1) :
    select2Vec m minScoreCutoff ≠ [] := by
  cases m with
  | nil => exact absurd rfl hm
  | cons e es =>
    have hmax_e : e.2.2 ≤ select2MaxScore e es := foldl_max_init_le _ _
    have hmaxpos : 0 < select2MaxScore e es :=
      lt_of_lt_of_le (hpos e (by simp)) hmax_e
    have hattained : ∃ x ∈ e :: es, select2MaxScore e es = x.2.2 := by
      rcases foldl_max_mem ((e :: es).map (fun x => x.2.2)) e.2.2 with h | h
      · exact ⟨e, by simp, h⟩
      · obtain ⟨x, hx, hxe⟩ := List.mem_map.mp h
        exact ⟨x, hx, hxe.symm⟩
    obtain ⟨x0, hx0mem, hx0eq⟩ := hattained
    have hx0filter : x0 ∈ (e :: es).filter
        (fun x => select2MaxScore e es * minScoreCutoff ≤ x.2.2) := by
      refine List.mem_filter.mpr ⟨hx0mem, ?_⟩
      simp only [decide_eq_true_eq]
      rw [← hx0eq]
      exact mul_le_of_le_one_right (le_of_lt hmaxpos) hcut1
    unfold select2Vec
    intro hnil
    rw [List.map_eq_nil] at hnil
    rw [hnil] at hx0filter
    simp at hx0filter

lemma select2_ne_nil {α : Type} (LIMIT : ℕ) (impl : CandidateImpl2 α) (pick : ℕ → ℕ)
    (candidates : List α) (minScoreCutoff : ℚ)
    (hpos : ∃ c ∈ candidates, 0 < impl.score c) (hcut1 : minScoreCutoff ≤ 1) :
    select2 LIMIT impl pick candidates minScoreCutoff ≠ [] := by
  unfold select2 select2Core
  have hvec : select2Vec (collectPositive impl candidates) minScoreCutoff ≠ [] :=
    select2Vec_ne_nil _ _ (collectPositive_ne_nil impl candidates hpos)
      (collectPositive_pos impl candidates) hcut1
  cases hv : select2Vec (collectPositive impl candidates) minScoreCutoff with
  | nil => exact absurd hv hvec
  | cons v vs =>
    dsimp only
    have hlen := select2Loop_length impl pick LIMIT
      (((v :: vs).get ⟨pick 0 % (v :: vs).length, Nat.mod_lt _ (Nat.succ_pos _)⟩).2)
      (min ((v :: vs).filter (fun x => impl.id x.1 !=
        impl.id ((v :: vs).get ⟨pick 0 % (v :: vs).length, Nat.mod_lt _ (Nat.succ_pos _)⟩).1)).length
        (LIMIT * 5))
      1
      [((v :: vs).get ⟨pick 0 % (v :: vs).length, Nat.mod_lt _ (Nat.succ_pos _)⟩).1]
      ((v :: vs).filter (fun x => impl.id x.1 !=
        impl.id ((v :: vs).get ⟨pick 0 % (v :: vs).length, Nat.mod_lt _ (Nat.succ_pos _)⟩).1))
      (by simp)
    intro hnil
    rw [hnil] at hlen
    simp at hlen

lemma select_ne_nil {α : Type} (LIMIT : ℕ) (impl : CandidateImpl α)
    (candidates : List α) (hL : 0 < LIMIT) (hne : candidates ≠ []) :
    select LIMIT impl candidates ≠ [] := by
  obtain ⟨n, rfl⟩ : ∃ n, LIMIT = n + 1 := ⟨LIMIT - 1, by omega⟩
  have helig : eligible impl candidates ([] : List α) = candidates := by
    simp [eligible]
  obtain ⟨c, hc⟩ := maxByKey_isSome (selKey impl (currentScoreOf impl []) [])
    (eligible impl candidates []) (by rw [helig]; exact hne)
  have hstep : selectStep impl candidates [] (currentScoreOf impl []) = some c := by
    unfold selectStep
    rw [hc]
    dsimp only
    rw [if_pos (show currentScoreOf impl ([] : List α) = 0 from rfl)]
  show selectGo impl candidates (n + 1) [] ≠ []
  simp only [selectGo, hstep]
  intro hempty
  have hlen := selectGo_length_le impl candidates n ([] ++ [c])
  rw [hempty] at hlen
  simp at hlen

/-- C3: for every non-empty candidate slice containing a candidate with
strictly positive individual score, both revisions of `select` return a
non-empty result: the greedy selector of `candidate-selection/src/lib.rs`
(whose first round always appends the key argmax because the current score is
still zero) and, for every possible random choice, the randomized selector of
the root crate's `src/lib.rs` (which always pushes its first weighted pick). -/
theorem claim_C3_select_nonempty {α : Type} (LIMIT : ℕ) (impl : CandidateImpl α)
    (impl2 : CandidateImpl2 α) (pick : ℕ → ℕ) (candidates : List α) (minScoreCutoff : ℚ)
    (hL : 0 < LIMIT) (hne : candidates ≠ [])
    (hpos : ∃ c ∈ candidates, 0 < impl.score c)
    (hpos2 : ∃ c ∈ candidates, 0 < impl2.score c)
    (hcut1 : minScoreCutoff ≤ 1) :
    select LIMIT impl candidates ≠ [] ∧
    select2 LIMIT impl2 pick candidates minScoreCutoff ≠ [] :=
  ⟨select_ne_nil LIMIT impl candidates hL hne,
   select2_ne_nil LIMIT impl2 pick candidates minScoreCutoff hpos2 hcut1⟩

/-- A `CandidateImpl2` view of the `implC1` scenario for the randomized
selector. -/
def implC3 : CandidateImpl2 ℕ where
  id := fun c => c
  score := fun c => if c = 0 then 1/2 else if c = 1 then 1/4 else 0
  scoreMany := fun cs =>
    if cs = [0] then 1/2 else if cs = [1] then 1/4
    else if cs = [1, 0] then 1/4 else if cs = [0, 1] then 1/2 else 0

/-- Witness for C3 at the two-candidate instance with the identity chooser and
cutoff 1/4. -/
theorem claim_C3_witness :
    select 2 implC1 [0, 1] ≠ [] ∧ select2 2 implC3 (fun t => t) [0, 1] (1/4) ≠ [] :=
  claim_C3_select_nonempty 2 implC1 implC3 (fun t => t) [0, 1] (1/4)
    (by norm_num) (by simp)
    ⟨0, by simp, by norm_num [implC1]⟩
    ⟨0, by simp, by norm_num [implC3]⟩
    (by norm_num)

/-! ## Indexer candidate scoring
Embedding of `Candidate::score` and `Candidate::score_many` from
`indexer-selection/src/lib.rs`.  The f64 scoring curves are modelled as exact
real-valued functions; the saturating `as u8`/`as u32`/`as u64` casts as
truncation clamped to the type maximum. -/

/-- The attributes of `indexer_selection::Candidate` that scoring reads;
`latencyMs` stands for `perf.latency_ms()`. -/
structure IndexerCandidate where
  fee : ℚ
  successRate : ℚ
  latencyMs : ℕ
  secondsBehind : ℕ
  slashableUsd : ℕ
  versionsBehind : ℕ
  zeroAllocation : Bool
deriving DecidableEq, Repr

/-- Modelled from the spec: the `expected_value_probabilities` overload taking
`ExpectedPerformance` values is not under `src/` (only its caller in
`indexer-selection/src/lib.rs` is); §4.3 specifies the kernel's input as the
subset's (latency_ms, success_rate) pairs. -/
def perfPairs (cs : List IndexerCandidate) : List PerfInput :=
  cs.map (fun c => ⟨(c.latencyMs : ℚ), c.successRate⟩)

/-- Rust's saturating float-to-unsigned cast `as uN` of a non-negative finite
value: truncate toward zero, clamp to the type maximum. -/
def castSat (maxVal : ℕ) (x : ℚ) : ℕ :=
  min (Int.toNat ⌊x⌋) maxVal

/-- The `success_rate` aggregate of `score_many`: the sum of the race
probabilities. -/
def successRateAgg (ps : List ℚ) : ℚ := ps.sum

/-- The `latency` aggregate of `score_many`:
`(Σ latencyᵢ.recip() * pᵢ).recip() as u32`, with the f64 special values a zero
latency produces (`inf*p = inf` for `p > 0`, `inf*0 = NaN`) both landing on 0
through the saturating cast, and an all-zero sum giving `inf -> u32::MAX`. -/
def latencyAgg (cs : List IndexerCandidate) (ps : List ℚ) : ℕ :=
  if (cs.zip ps).any (fun x => x.1.latencyMs == 0) then 0
  else
    let s := (List.zipWith (fun (l : ℕ) p => ((l : ℚ))⁻¹ * p) (cs.map (fun c => c.latencyMs)) ps).sum
    if s = 0 then 4294967295 else castSat 4294967295 s⁻¹

/-- The `subgraph_versions_behind` aggregate: `(Σ vᵢ * pᵢ) as u8`. -/
def versionsBehindAgg (cs : List IndexerCandidate) (ps : List ℚ) : ℕ :=
  castSat 255
    ((List.zipWith (fun (v : ℕ) p => (v : ℚ) * p) (cs.map (fun c => c.versionsBehind)) ps).sum)

/-- The `seconds_behind` aggregate: `(Σ bᵢ * pᵢ) as u32`. -/
def secondsBehindAgg (cs : List IndexerCandidate) (ps : List ℚ) : ℕ :=
  castSat 4294967295
    ((List.zipWith (fun (b : ℕ) p => (b : ℚ) * p) (cs.map (fun c => c.secondsBehind)) ps).sum)

/-- The `slashable_usd` aggregate: `(Σ xᵢ * pᵢ) as u64`. -/
def slashableUsdAgg (cs : List IndexerCandidate) (ps : List ℚ) : ℕ :=
  castSat 18446744073709551615
    ((List.zipWith (fun (x : ℕ) p => (x : ℚ) * p) (cs.map (fun c => c.slashableUsd)) ps).sum)

/-- The `p_zero_allocation` aggregate: `Σ (zᵢ as u8 as f64) * pᵢ > 0.5`. -/
def zeroAllocationAgg (cs : List IndexerCandidate) (ps : List ℚ) : Bool :=
  decide (1/2 < (List.zipWith (fun (z : Bool) p => (if z then (1 : ℚ) else 0) * p)
    (cs.map (fun c => c.zeroAllocation)) ps).sum)

/-- `score_success_rate`: `success_rate.powi(7).max(0.01)`. -/
noncomputable def score_success_rate (r : ℚ) : ℝ :=
  max ((r : ℝ) ^ 7) 0.01

/-- The sigmoid of `score_latency`: `1 + e^((x - 400) / 300)`. -/
noncomputable def latencySigmoid (x : ℕ) : ℝ :=
  1 + Real.exp (((x : ℝ) - 400) / 300)

/-- `score_latency`: `sigmoid(0) / sigmoid(latency_ms)`. -/
noncomputable def score_latency (latencyMs : ℕ) : ℝ :=
  latencySigmoid 0 / latencySigmoid latencyMs

/-- `score_fee`: `(fee + S).recip() - S` floored at 1e-18, with
S = 0.6180339887498949. -/
noncomputable def score_fee (fee : ℚ) : ℝ :=
  max (((fee : ℝ) + 0.6180339887498949)⁻¹ - 0.6180339887498949) 1e-18

/-- `score_seconds_behind`: `1 - e^(-32 / seconds_behind.max(1))`. -/
noncomputable def score_seconds_behind (secondsBehind : ℕ) : ℝ :=
  1 - Real.exp (-32 / (max secondsBehind 1 : ℕ))

/-- `score_slashable_usd`: `1 - e^(-a * x)` with a = 2e-4. -/
noncomputable def score_slashable_usd (slashableUsd : ℕ) : ℝ :=
  1 - Real.exp (-(2e-4) * (slashableUsd : ℝ))

/-- `score_subgraph_versions_behind`: `0.25 ^ versions_behind`. -/
noncomputable def score_subgraph_versions_behind (versionsBehind : ℕ) : ℝ :=
  (0.25 : ℝ) ^ versionsBehind

/-- `score_zero_allocation`: 0.8 when the flag is set, 1.0 otherwise. -/
noncomputable def score_zero_allocation (zeroAllocation : Bool) : ℝ :=
  if zeroAllocation then 0.8 else 1

/-- `Candidate::score`: the product of the seven sub-scores on the
candidate's own attributes. -/
noncomputable def score (c : IndexerCandidate) : ℝ :=
  score_success_rate c.successRate * score_latency c.latencyMs * score_fee c.fee *
  score_seconds_behind c.secondsBehind * score_slashable_usd c.slashableUsd *
  score_subgraph_versions_behind c.versionsBehind * score_zero_allocation c.zeroAllocation

/-- `Candidate::score_many::<LIMIT>`: reject a fee sum outside [0, 1]
(`Normalized::new` fails, returning `Normalized::ZERO`), otherwise apply the
seven sub-scores to the probability-weighted aggregates. -/
noncomputable def scoreMany (LIMIT : ℕ) (cs : List IndexerCandidate) : ℝ :=
  let fee := (cs.map (fun c => c.fee)).sum
  if fee < 0 ∨ 1 < fee then 0
  else
    let p := expectedValueProbabilities LIMIT (perfPairs cs)
    score_success_rate (successRateAgg p) * score_latency (latencyAgg cs p) * score_fee fee *
    score_seconds_behind (secondsBehindAgg cs p) * score_slashable_usd (slashableUsdAgg cs p) *
    score_subgraph_versions_behind (versionsBehindAgg cs p) *
    score_zero_allocation (zeroAllocationAgg cs p)

/-- The specification's `seconds_behind` aggregation: max over the subset. -/
def secondsBehindAggSpec (cs : List IndexerCandidate) : ℕ :=
  (cs.map (fun c => c.secondsBehind)).foldr max 0

/-- The specification's `versions_behind` aggregation: max over the subset. -/
def versionsBehindAggSpec (cs : List IndexerCandidate) : ℕ :=
  (cs.map (fun c => c.versionsBehind)).foldr max 0

/-- The specification's `slashable_stake` aggregation: min over the subset. -/
def slashableUsdAggSpec (cs : List IndexerCandidate) : ℕ :=
  match cs.map (fun c => c.slashableUsd) with
  | [] => 0
  | x :: xs => xs.foldl min x

/-- The specification's `zero_allocation` aggregation: true iff all members
have the flag. -/
def zeroAllocationAggSpec (cs : List IndexerCandidate) : Bool :=
  cs.all (fun c => c.zeroAllocation)

/-- The first candidate of the C6 scenario: fresh, well-staked, current
version. -/
def cA : IndexerCandidate := ⟨0, 99/100, 50, 0, 1000, 0, false⟩

/-- The second candidate of the C6 scenario: 100 s behind, less stake, two
versions behind, zero-allocation. -/
def cB : IndexerCandidate := ⟨0, 99/100, 100, 100, 500, 2, true⟩

lemma evp_cAB : expectedValueProbabilities 2 (perfPairs [cA, cB]) = [99/100, 99/10000] := by
  norm_num [expectedValueProbabilities, perfPairs, cA, cB, List.insertionSort,
    List.orderedInsert, failProds, List.enum, List.enumFrom, List.zip, List.zipWith, List.take]

/-- C6 (counterexample): `score_many` aggregates `seconds_behind`,
`slashable_usd` and `versions_behind` as floors of probability-weighted sums,
not as max / min / max over the subset: on {cA, cB} the code's aggregates are
0, 994 and 0 while the specification's are 100, 500 and 2. -/
theorem claim_C6_counterexample :
    secondsBehindAgg [cA, cB] (expectedValueProbabilities 2 (perfPairs [cA, cB])) = 0 ∧
    secondsBehindAggSpec [cA, cB] = 100 ∧
    slashableUsdAgg [cA, cB] (expectedValueProbabilities 2 (perfPairs [cA, cB])) = 994 ∧
    slashableUsdAggSpec [cA, cB] = 500 ∧
    versionsBehindAgg [cA, cB] (expectedValueProbabilities 2 (perfPairs [cA, cB])) = 0 ∧
    versionsBehindAggSpec [cA, cB] = 2 := by
  rw [evp_cAB]
  norm_num [secondsBehindAgg, secondsBehindAggSpec, slashableUsdAgg, slashableUsdAggSpec,
    versionsBehindAgg, versionsBehindAggSpec, castSat, cA, cB, List.zipWith]
  decide

lemma evp_sum_le_one (LIMIT : ℕ) (selections : List PerfInput)
    (h : selections.length ≤ LIMIT)
    (hs : ∀ x ∈ selections, 0 ≤ x.successRate ∧ x.successRate ≤ 1) :
    (expectedValueProbabilities LIMIT selections).sum ≤ 1 := by
  rw [evp_sum LIMIT selections h]
  have : 0 ≤ ((selections.map (fun x => x.successRate)).map (fun s => 1 - s)).prod := by
    apply List.prod_nonneg
    intro a ha
    obtain ⟨s, hsmem, rfl⟩ := List.mem_map.mp ha
    obtain ⟨x, hx, rfl⟩ := List.mem_map.mp hsmem
    linarith [(hs x hx).2]
  linarith

lemma zipWith_natCast_weighted_le (bs : List ℕ) (ps : List ℚ) (B : ℕ)
    (hB : ∀ b ∈ bs, b ≤ B) (hp : ∀ p ∈ ps, 0 ≤ p) :
    (List.zipWith (fun (b : ℕ) p => (b : ℚ) * p) bs ps).sum ≤ (B : ℚ) * ps.sum := by
  induction bs generalizing ps with
  | nil =>
    simp only [List.zipWith_nil_left, List.sum_nil]
    exact mul_nonneg (Nat.cast_nonneg B) (List.sum_nonneg hp)
  | cons b bs ih =>
    cases ps with
    | nil => simp
    | cons p pt =>
      simp only [List.zipWith_cons_cons, List.sum_cons]
      have h1 : (b : ℚ) * p ≤ (B : ℚ) * p := by
        have hb : (b : ℚ) ≤ (B : ℚ) := by exact_mod_cast hB b (by simp)
        exact mul_le_mul_of_nonneg_right hb (hp p (by simp))
      have h2 := ih pt (fun x hx => hB x (by simp [hx])) (fun q hq => hp q (by simp [hq]))
      calc (b : ℚ) * p + (List.zipWith (fun (b : ℕ) p => (b : ℚ) * p) bs pt).sum
          ≤ (B : ℚ) * p + (B : ℚ) * pt.sum := by linarith
        _ = (B : ℚ) * (p :: pt).sum := by simp [List.sum_cons]; ring

lemma mem_le_foldr_max (l : List ℕ) : ∀ x ∈ l, x ≤ l.foldr max 0 := by
  induction l with
  | nil => simp
  | cons a t ih =>
    intro x hx
    rcases List.mem_cons.mp hx with rfl | hx'
    · exact le_max_left _ _
    · exact le_trans (ih x hx') (le_max_right _ _)

lemma castSat_le_of_le (m B : ℕ) (x : ℚ) (h : x ≤ (B : ℚ)) : castSat m x ≤ B := by
  unfold castSat
  refine le_trans (min_le_left _ _) ?_
  rw [Int.toNat_le]
  calc ⌊x⌋ ≤ ⌊(B : ℚ)⌋ := Int.floor_le_floor h
    _ = (B : ℤ) := by exact_mod_cast Int.floor_natCast B

lemma zipWith_false_sum_zero (zs : List Bool) (ps : List ℚ) (h : ∀ z ∈ zs, z = false) :
    (List.zipWith (fun (z : Bool) p => (if z then (1 : ℚ) else 0) * p) zs ps).sum = 0 := by
  induction zs generalizing ps with
  | nil => simp
  | cons z zt ih =>
    cases ps with
    | nil => simp
    | cons p pt =>
      have hz : z = false := h z (by simp)
      simp only [List.zipWith_cons_cons, List.sum_cons, hz]
      rw [ih pt (fun w hw => h w (by simp [hw]))]
      simp

/-- C6 (amended): for a subset with success rates in [0, 1], `score_many`
aggregates `seconds_behind`, `slashable_usd` and `versions_behind` as floors
of race-probability-weighted sums, so each aggregate is at most the subset
maximum of its attribute (for slashable stake, possibly below the subset
minimum, never above the maximum), and the aggregate `zero_allocation` flag
(`Σ zᵢ·pᵢ > 0.5`) can only be set when some member has the flag. -/
theorem claim_C6_amended (LIMIT : ℕ) (cs : List IndexerCandidate) (ps : List ℚ)
    (hps : ps = expectedValueProbabilities LIMIT (perfPairs cs))
    (hLIM : cs.length ≤ LIMIT)
    (hs : ∀ c ∈ cs, 0 ≤ c.successRate ∧ c.successRate ≤ 1) :
    secondsBehindAgg cs ps ≤ secondsBehindAggSpec cs ∧
    versionsBehindAgg cs ps ≤ versionsBehindAggSpec cs ∧
    slashableUsdAgg cs ps ≤ (cs.map (fun c => c.slashableUsd)).foldr max 0 ∧
    (zeroAllocationAgg cs ps = true → ∃ c ∈ cs, c.zeroAllocation = true) := by
  have hplen : (perfPairs cs).length = cs.length := by simp [perfPairs]
  have hlen' : (perfPairs cs).length ≤ LIMIT := by rw [hplen]; exact hLIM
  have hs' : ∀ x ∈ perfPairs cs, 0 ≤ x.successRate ∧ x.successRate ≤ 1 := by
    intro x hx
    obtain ⟨c, hc, rfl⟩ := List.mem_map.mp hx
    exact hs c hc
  have hpnn : ∀ p ∈ ps, 0 ≤ p := by
    rw [hps]; exact evp_nonneg LIMIT (perfPairs cs) hlen' hs'
  have hpsum : ps.sum ≤ 1 := by
    rw [hps]; exact evp_sum_le_one LIMIT (perfPairs cs) hlen' hs'
  have hbound : ∀ (attr : IndexerCandidate → ℕ) (m : ℕ),
      castSat m ((List.zipWith (fun (b : ℕ) p => (b : ℚ) * p) (cs.map attr) ps).sum)
        ≤ (cs.map attr).foldr max 0 := by
    intro attr m
    apply castSat_le_of_le
    calc (List.zipWith (fun (b : ℕ) p => (b : ℚ) * p) (cs.map attr) ps).sum
        ≤ (((cs.map attr).foldr max 0 : ℕ) : ℚ) * ps.sum :=
          zipWith_natCast_weighted_le _ _ _ (mem_le_foldr_max _) hpnn
      _ ≤ (((cs.map attr).foldr max 0 : ℕ) : ℚ) * 1 :=
          mul_le_mul_of_nonneg_left hpsum (Nat.cast_nonneg _)
      _ = _ := mul_one _
  refine ⟨hbound _ _, hbound _ _, hbound _ _, ?_⟩
  intro hagg
  by_contra hno
  push_neg at hno
  have hall : ∀ z ∈ cs.map (fun c => c.zeroAllocation), z = false := by
    intro z hz
    obtain ⟨c, hc, rfl⟩ := List.mem_map.mp hz
    simpa using hno c hc
  unfold zeroAllocationAgg at hagg
  rw [zipWith_false_sum_zero _ _ hall] at hagg
  norm_num at hagg

/-- Witness for the amended C6 at the {cA, cB} subset. -/
theorem claim_C6_amended_witness :
    secondsBehindAgg [cA, cB] (expectedValueProbabilities 2 (perfPairs [cA, cB]))
      ≤ secondsBehindAggSpec [cA, cB] ∧
    versionsBehindAgg [cA, cB] (expectedValueProbabilities 2 (perfPairs [cA, cB]))
      ≤ versionsBehindAggSpec [cA, cB] ∧
    slashableUsdAgg [cA, cB] (expectedValueProbabilities 2 (perfPairs [cA, cB]))
      ≤ ([cA, cB].map (fun c => c.slashableUsd)).foldr max 0 ∧
    (zeroAllocationAgg [cA, cB] (expectedValueProbabilities 2 (perfPairs [cA, cB])) = true →
      ∃ c ∈ [cA, cB], c.zeroAllocation = true) :=
  claim_C6_amended 2 [cA, cB] (expectedValueProbabilities 2 (perfPairs [cA, cB])) rfl
    (by norm_num) (by norm_num [cA, cB])

lemma evp_singleton (n : ℕ) (x : PerfInput) :
    expectedValueProbabilities (n + 1) [x] = [x.successRate] := by
  simp [expectedValueProbabilities, List.insertionSort, List.orderedInsert, failProds,
    List.enum, List.enumFrom]

lemma castSat_natCast (m b : ℕ) (h : b ≤ m) : castSat m ((b : ℚ)) = b := by
  unfold castSat
  rw [Int.floor_natCast]
  simp [h]

/-- The candidate of the C7 scenario: success rate 1/2, one version behind. -/
def cC : IndexerCandidate := ⟨0, 1/2, 0, 0, 10000, 1, false⟩

/-- C7 (counterexample): `score_many([c])` is far from `c.score()` when the
success rate is below 1: on cC the aggregates become slashable 5000 (not
10000) and versions 0 (not 1), and the two scores differ by more than the
claimed 1e-12 relative error (the ratio is at least 2). -/
theorem claim_C7_counterexample :
    ¬ (|scoreMany 1 [cC] - score cC| ≤ 1e-12 * |score cC|) := by
  have hps : expectedValueProbabilities 1 (perfPairs [cC]) = [1/2] := by
    rw [show perfPairs [cC] = [⟨0, 1/2⟩] from rfl]
    rw [show (1 : ℕ) = 0 + 1 from rfl, evp_singleton]
  have hsm : scoreMany 1 [cC] = score_success_rate (1/2) * score_latency 0 * score_fee 0 *
      score_seconds_behind 0 * score_slashable_usd 5000 * score_subgraph_versions_behind 0 *
      score_zero_allocation false := by
    simp only [scoreMany]
    rw [hps]
    norm_num [successRateAgg, latencyAgg, secondsBehindAgg, slashableUsdAgg,
      versionsBehindAgg, zeroAllocationAgg, castSat, cC,
      show ((5000 : ℤ).toNat = 5000) from rfl]
  have hsc : score cC = score_success_rate (1/2) * score_latency 0 * score_fee 0 *
      score_seconds_behind 0 * score_slashable_usd 10000 * score_subgraph_versions_behind 1 *
      score_zero_allocation false := by
    norm_num [score, cC]
  have hssr : score_success_rate (1/2) = 1/100 := by
    unfold score_success_rate
    rw [max_eq_right (by push_cast; norm_num)]
    norm_num
  have hsigpos : (0:ℝ) < latencySigmoid 0 := by
    unfold latencySigmoid
    positivity
  have hsl : score_latency 0 = 1 := div_self (ne_of_gt hsigpos)
  have hsvb0 : score_subgraph_versions_behind 0 = 1 := pow_zero _
  have hsvb1 : score_subgraph_versions_behind 1 = 1/4 := by
    unfold score_subgraph_versions_behind
    norm_num
  have hsza : score_zero_allocation false = 1 := by simp [score_zero_allocation]
  have hE1 : score_slashable_usd 5000 = 1 - Real.exp (-1) := by
    unfold score_slashable_usd
    norm_num
  have hE2 : score_slashable_usd 10000 = 1 - Real.exp (-2) := by
    unfold score_slashable_usd
    norm_num
  have hT32 : score_seconds_behind 0 = 1 - Real.exp (-32) := by
    unfold score_seconds_behind
    norm_num
  have h2exp : (2:ℝ) ≤ Real.exp 1 := by linarith [Real.add_one_le_exp (1:ℝ)]
  have hexp1 : Real.exp (-1) ≤ 1/2 := by
    rw [Real.exp_neg]
    have h0 : (0:ℝ) < 2 := by norm_num
    calc (Real.exp 1)⁻¹ ≤ (2:ℝ)⁻¹ := inv_le_inv_of_le h0 h2exp
      _ = 1/2 := by norm_num
  have hexp2pos : (0:ℝ) < Real.exp (-2) := Real.exp_pos _
  have hexp2le : Real.exp (-2) ≤ 1 := by
    have h := Real.exp_le_exp.mpr (show (-2:ℝ) ≤ 0 by norm_num)
    rwa [Real.exp_zero] at h
  have hexp32 : Real.exp (-32) < 1 := by
    have h := Real.exp_lt_exp.mpr (show (-32:ℝ) < 0 by norm_num)
    rwa [Real.exp_zero] at h
  have hFpos : (0:ℝ) < score_fee 0 := lt_of_lt_of_le (by norm_num) (le_max_right _ _)
  set F := score_fee 0 with hFdef
  set T := (1 : ℝ) - Real.exp (-32) with hTdef
  set E1v := (1 : ℝ) - Real.exp (-1) with hE1vdef
  set E2v := (1 : ℝ) - Real.exp (-2) with hE2vdef
  have hTpos : 0 < T := by rw [hTdef]; linarith
  have hE1l : (1:ℝ)/2 ≤ E1v := by rw [hE1vdef]; linarith
  have hE2l : (0:ℝ) ≤ E2v := by rw [hE2vdef]; linarith
  have hE2u : E2v ≤ 1 := by rw [hE2vdef]; linarith
  have hsm' : scoreMany 1 [cC] = 1/100 * F * T * E1v := by
    rw [hsm, hssr, hsl, hT32, hE1, hsvb0, hsza]
    ring
  have hsc' : score cC = 1/100 * F * T * E2v * (1/4) := by
    rw [hsc, hssr, hsl, hT32, hE2, hsvb1, hsza]
    ring
  have hK : (0:ℝ) < 1/100 * F * T := by positivity
  intro habs
  have hdiff : scoreMany 1 [cC] - score cC ≥ (1/100 * F * T) * (1/4) := by
    rw [hsm', hsc']
    have hfac : (1/4 : ℝ) ≤ E1v - E2v * (1/4) := by linarith
    calc 1/100 * F * T * E1v - 1/100 * F * T * E2v * (1/4)
        = (1/100 * F * T) * (E1v - E2v * (1/4)) := by ring
      _ ≥ (1/100 * F * T) * (1/4) := mul_le_mul_of_nonneg_left hfac (le_of_lt hK)
  have hscnn : (0:ℝ) ≤ score cC := by
    rw [hsc']
    have h := mul_nonneg (mul_nonneg hK.le hE2l) (show (0:ℝ) ≤ 1/4 by norm_num)
    linarith [h]
  have hsmax : score cC ≤ (1/100 * F * T) * (1/4) := by
    rw [hsc']
    calc 1/100 * F * T * E2v * (1/4) = ((1/100 * F * T) * E2v) * (1/4) := by ring
      _ ≤ ((1/100 * F * T) * 1) * (1/4) := by
          apply mul_le_mul_of_nonneg_right _ (show (0:ℝ) ≤ 1/4 by norm_num)
          exact mul_le_mul_of_nonneg_left hE2u hK.le
      _ = (1/100 * F * T) * (1/4) := by ring
  rw [abs_of_nonneg hscnn, abs_of_nonneg (by linarith : (0:ℝ) ≤ scoreMany 1 [cC] - score cC)]
    at habs
  have hxpos : (0:ℝ) < (1/100 * F * T) * (1/4) := mul_pos hK (by norm_num)
  have hml : (1/100 * F * T) * (1/4) ≤ 1e-12 * ((1/100 * F * T) * (1/4)) := by
    calc (1/100 * F * T) * (1/4) ≤ scoreMany 1 [cC] - score cC := hdiff
      _ ≤ 1e-12 * score cC := habs
      _ ≤ 1e-12 * ((1/100 * F * T) * (1/4)) := by
          apply mul_le_mul_of_nonneg_left hsmax
          norm_num
  nlinarith [hxpos, hml]

/-- C7 (amended): `score_many([c])` equals `c.score()` exactly when c's
success rate is 1 (so the race probability of the singleton is 1 and every
probability-weighted aggregate reduces to the attribute itself); for success
rates below 1 the aggregates are scaled by the success rate and the equality
can fail by far more than numerical noise. -/
theorem claim_C7_amended (LIMIT : ℕ) (c : IndexerCandidate)
    (h1 : c.successRate = 1) (hL : 1 ≤ LIMIT)
    (hfee0 : 0 ≤ c.fee) (hfee1 : c.fee ≤ 1)
    (hlat : c.latencyMs ≤ 4294967295) (hsec : c.secondsBehind ≤ 4294967295)
    (hslash : c.slashableUsd ≤ 18446744073709551615) (hver : c.versionsBehind ≤ 255) :
    scoreMany LIMIT [c] = score c := by
  obtain ⟨n, rfl⟩ : ∃ n, LIMIT = n + 1 := ⟨LIMIT - 1, by omega⟩
  have hps : expectedValueProbabilities (n + 1) (perfPairs [c]) = [1] := by
    rw [show perfPairs [c] = [⟨(c.latencyMs : ℚ), c.successRate⟩] from rfl, evp_singleton]
    simp [h1]
  have hagg1 : successRateAgg [(1:ℚ)] = c.successRate := by
    rw [h1]
    simp [successRateAgg]
  have haggLat : latencyAgg [c] [(1:ℚ)] = c.latencyMs := by
    unfold latencyAgg
    by_cases h0 : c.latencyMs = 0
    · simp [h0]
    · rw [if_neg (by simp [h0])]
      have hsum : (List.zipWith (fun (l : ℕ) p => ((l : ℚ))⁻¹ * p)
          ([c].map (fun c => c.latencyMs)) [(1:ℚ)]).sum = ((c.latencyMs : ℚ))⁻¹ := by
        simp
      rw [hsum, if_neg (inv_ne_zero (by exact_mod_cast h0)), inv_inv]
      exact castSat_natCast _ _ hlat
  have haggSec : secondsBehindAgg [c] [(1:ℚ)] = c.secondsBehind := by
    unfold secondsBehindAgg
    have hsum : (List.zipWith (fun (b : ℕ) p => (b : ℚ) * p)
        ([c].map (fun c => c.secondsBehind)) [(1:ℚ)]).sum = (c.secondsBehind : ℚ) := by
      simp
    rw [hsum]
    exact castSat_natCast _ _ hsec
  have haggSlash : slashableUsdAgg [c] [(1:ℚ)] = c.slashableUsd := by
    unfold slashableUsdAgg
    have hsum : (List.zipWith (fun (x : ℕ) p => (x : ℚ) * p)
        ([c].map (fun c => c.slashableUsd)) [(1:ℚ)]).sum = (c.slashableUsd : ℚ) := by
      simp
    rw [hsum]
    exact castSat_natCast _ _ hslash
  have haggVer : versionsBehindAgg [c] [(1:ℚ)] = c.versionsBehind := by
    unfold versionsBehindAgg
    have hsum : (List.zipWith (fun (v : ℕ) p => (v : ℚ) * p)
        ([c].map (fun c => c.versionsBehind)) [(1:ℚ)]).sum = (c.versionsBehind : ℚ) := by
      simp
    rw [hsum]
    exact castSat_natCast _ _ hver
  have haggZero : zeroAllocationAgg [c] [(1:ℚ)] = c.zeroAllocation := by
    cases hz : c.zeroAllocation <;> simp [zeroAllocationAgg, hz] <;> norm_num
  have hfeesum : ([c].map (fun c => c.fee)).sum = c.fee := by simp
  simp only [scoreMany]
  rw [hps, hfeesum, if_neg (by push_neg; exact ⟨hfee0, hfee1⟩)]
  rw [hagg1, haggLat, haggSec, haggSlash, haggVer, haggZero]
  rfl

/-- The witness candidate for the amended C7: success rate exactly 1. -/
def cD : IndexerCandidate := ⟨1/2, 1, 100, 50, 1000, 2, true⟩

/-- Witness for the amended C7: with success rate 1, `score_many([cD])`
equals `cD.score()` exactly. -/
theorem claim_C7_amended_witness : scoreMany 3 [cD] = score cD :=
  claim_C7_amended 3 cD rfl (by norm_num) (by norm_num [cD]) (by norm_num [cD])
    (by norm_num [cD]) (by norm_num [cD]) (by norm_num [cD]) (by norm_num [cD])

/-! ## Performance tracker
Embedding of `indexer-selection/src/performance.rs`: the fast `ShortTerm`
accumulator, the slow `LongTerm` latency histogram, and the combined
`Performance` tracker with its `feedback`, `decay` and `success_rate`
operations. -/

/-- FAST_DECAY_HZ = 0.05. -/
def FAST_DECAY_HZ : ℚ := 1/20

/-- SLOW_DECAY_HZ = 0.001. -/
def SLOW_DECAY_HZ : ℚ := 1/1000

/-- FAST_BIAS = 0.8. -/
def FAST_BIAS : ℚ := 4/5

/-- The fast accumulator: total latency, success count and failure count. -/
structure ShortTerm where
  totalLatencyMs : ℚ
  successCount : ℚ
  failureCount : ℚ
deriving DecidableEq, Repr

/-- `ShortTerm::decay`: multiply all three counters by `1 - rate_hz`. -/
def ShortTerm.decay (st : ShortTerm) (rateHz : ℚ) : ShortTerm :=
  { totalLatencyMs := st.totalLatencyMs * (1 - rateHz)
    successCount := st.successCount * (1 - rateHz)
    failureCount := st.failureCount * (1 - rateHz) }

/-- `ShortTerm::feedback`. -/
def ShortTerm.feedback (st : ShortTerm) (success : Bool) (latencyMs : ℕ) : ShortTerm :=
  { totalLatencyMs := st.totalLatencyMs + latencyMs
    successCount := st.successCount + if success then 1 else 0
    failureCount := st.failureCount + if success then 0 else 1 }

/-- `ShortTerm::success_rate`: `(s + 1) / (s + 1 + f)`. -/
def ShortTerm.successRate (st : ShortTerm) : ℚ :=
  (st.successCount + 1) / ((st.successCount + 1) + st.failureCount)

/-- The 29 latency histogram bin upper bounds. -/
def LATENCY_BINS : List ℕ :=
  [32, 64, 96, 128, 192, 256, 320, 384, 512, 640, 768, 896, 1152, 1408, 1664, 1920,
   2432, 2944, 3456, 3968, 4992, 6016, 7040, 8064, 10112, 12160, 14208, 16256, 20352]

/-- The slow accumulator: a 29-bin latency histogram and a failure count. -/
structure LongTerm where
  latencyHist : List ℚ
  failureCount : ℚ
deriving DecidableEq, Repr

/-- `LongTerm::decay`: multiply the failure count and every histogram bin by
`1 - rate_hz`. -/
def LongTerm.decay (lt : LongTerm) (rateHz : ℚ) : LongTerm :=
  { latencyHist := lt.latencyHist.map (fun c => c * (1 - rateHz))
    failureCount := lt.failureCount * (1 - rateHz) }

/-- The histogram bin receiving a response of the given latency: the first of
the leading 28 bins whose bound is not below it, the last bin otherwise. -/
def binIndex (latencyMs : ℕ) : ℕ :=
  (LATENCY_BINS.take (LATENCY_BINS.length - 1)).findIdx (fun b => latencyMs ≤ b)

/-- `LongTerm::feedback`: count a failure and increment the matching bin. -/
def LongTerm.feedback (lt : LongTerm) (success : Bool) (latencyMs : ℕ) : LongTerm :=
  { latencyHist := lt.latencyHist.set (binIndex latencyMs)
      (lt.latencyHist.getD (binIndex latencyMs) 0 + 1)
    failureCount := lt.failureCount + if success then 0 else 1 }

/-- `LongTerm::success_rate`: with `total = Σ hist + 1`, `s = total - f`,
return `s / (s + f)`. -/
def LongTerm.successRate (lt : LongTerm) : ℚ :=
  ((lt.latencyHist.sum + 1) - lt.failureCount) /
    (((lt.latencyHist.sum + 1) - lt.failureCount) + lt.failureCount)

/-- The `Performance` tracker: fast and slow accumulators. -/
structure Performance where
  fast : ShortTerm
  slow : LongTerm
deriving DecidableEq, Repr

/-- `Performance::default()`: all counters zero, 29 empty bins. -/
def defaultPerformance : Performance :=
  ⟨⟨0, 0, 0⟩, ⟨List.replicate 29 0, 0⟩⟩

/-- `Performance::feedback`. -/
def Performance.feedback (p : Performance) (success : Bool) (latencyMs : ℕ) : Performance :=
  ⟨p.fast.feedback success latencyMs, p.slow.feedback success latencyMs⟩

/-- `Performance::decay`. -/
def Performance.decay (p : Performance) : Performance :=
  ⟨p.fast.decay FAST_DECAY_HZ, p.slow.decay SLOW_DECAY_HZ⟩

/-- `Performance::success_rate`:
`min(fast*FAST_BIAS + slow*(1-FAST_BIAS), 0.99)`. -/
def Performance.successRate (p : Performance) : ℚ :=
  min (p.fast.successRate * FAST_BIAS + p.slow.successRate * (1 - FAST_BIAS)) (99/100)

/-- The tracker's external operations: `feedback(success, latency_ms)` and
`decay()`. -/
inductive PerfOp where
  | feedback (success : Bool) (latencyMs : ℕ)
  | decay
deriving DecidableEq, Repr

/-- Apply one operation. -/
def applyOp (p : Performance) : PerfOp → Performance
  | .feedback s l => p.feedback s l
  | .decay => p.decay

/-- The tracker state after a sequence of operations on a fresh tracker. -/
def applyOps (ops : List PerfOp) : Performance :=
  ops.foldl applyOp defaultPerformance

/-- The reachable-state invariant: non-negative counters, failures bounded by
the histogram total, 29 bins. -/
def PerfInv (p : Performance) : Prop :=
  0 ≤ p.fast.totalLatencyMs ∧ 0 ≤ p.fast.successCount ∧ 0 ≤ p.fast.failureCount ∧
  (∀ h ∈ p.slow.latencyHist, 0 ≤ h) ∧ 0 ≤ p.slow.failureCount ∧
  p.slow.failureCount ≤ p.slow.latencyHist.sum ∧ p.slow.latencyHist.length = 29

lemma binIndex_lt (latencyMs : ℕ) : binIndex latencyMs < 29 := by
  unfold binIndex
  have h : (LATENCY_BINS.take (LATENCY_BINS.length - 1)).findIdx (fun b => latencyMs ≤ b)
      ≤ (LATENCY_BINS.take (LATENCY_BINS.length - 1)).length :=
    List.findIdx_le_length (fun b => decide (latencyMs ≤ b))
  have hlen : (LATENCY_BINS.take (LATENCY_BINS.length - 1)).length = 28 := by decide
  omega

lemma sum_set_add_one (l : List ℚ) (i : ℕ) (h : i < l.length) :
    (l.set i (l.getD i 0 + 1)).sum = l.sum + 1 := by
  induction l generalizing i with
  | nil => simp at h
  | cons x xs ih =>
    cases i with
    | zero =>
      simp only [List.getD_cons_zero, List.set_cons_zero, List.sum_cons]
      ring
    | succ j =>
      simp only [List.getD_cons_succ, List.set_cons_succ, List.sum_cons]
      rw [ih j (by simpa using h)]
      ring

lemma getD_nonneg (l : List ℚ) (hl : ∀ x ∈ l, 0 ≤ x) (i : ℕ) : 0 ≤ l.getD i 0 := by
  induction l generalizing i with
  | nil => simp [List.getD]
  | cons x xs ih =>
    cases i with
    | zero => exact hl x (by simp)
    | succ j => simpa using ih (fun y hy => hl y (by simp [hy])) j

lemma sum_map_mul (l : List ℚ) (r : ℚ) : (l.map (fun c => c * r)).sum = l.sum * r := by
  induction l with
  | nil => simp
  | cons x xs ih =>
    simp only [List.map_cons, List.sum_cons, ih]
    ring

lemma getD_map_mul (l : List ℚ) (r : ℚ) (i : ℕ) :
    (l.map (fun c => c * r)).getD i 0 = l.getD i 0 * r := by
  induction l generalizing i with
  | nil => simp [List.getD]
  | cons x xs ih =>
    cases i with
    | zero => simp
    | succ j => simpa using ih j

lemma perfInv_default : PerfInv defaultPerformance := by
  refine ⟨le_refl 0, le_refl 0, le_refl 0, ?_, le_refl 0, ?_, ?_⟩
  · intro h hh
    rw [List.eq_of_mem_replicate hh]
  · show (0:ℚ) ≤ (List.replicate 29 (0:ℚ)).sum
    rw [List.sum_replicate]
    simp
  · simp [defaultPerformance]

lemma perfInv_feedback (p : Performance) (hp : PerfInv p) (success : Bool) (latencyMs : ℕ) :
    PerfInv (p.feedback success latencyMs) := by
  obtain ⟨h1, h2, h3, h4, h5, h6, h7⟩ := hp
  have hbin : binIndex latencyMs < p.slow.latencyHist.length := by
    rw [h7]; exact binIndex_lt latencyMs
  have hsum := sum_set_add_one p.slow.latencyHist (binIndex latencyMs) hbin
  refine ⟨?_, ?_, ?_, ?_, ?_, ?_, ?_⟩
  · exact add_nonneg h1 (Nat.cast_nonneg _)
  · cases success <;> simp [Performance.feedback, ShortTerm.feedback] <;> linarith
  · cases success <;> simp [Performance.feedback, ShortTerm.feedback] <;> linarith
  · intro x hx
    rcases List.mem_or_eq_of_mem_set hx with hx' | hx'
    · exact h4 x hx'
    · rw [hx']
      have := getD_nonneg p.slow.latencyHist h4 (binIndex latencyMs)
      linarith
  · cases success <;> simp [Performance.feedback, LongTerm.feedback] <;> linarith
  · show p.slow.failureCount + _ ≤ _
    rw [show (p.feedback success latencyMs).slow.latencyHist
        = p.slow.latencyHist.set (binIndex latencyMs)
          (p.slow.latencyHist.getD (binIndex latencyMs) 0 + 1) from rfl, hsum]
    cases success <;> simp <;> linarith
  · show (p.slow.latencyHist.set _ _).length = 29
    rw [List.length_set]
    exact h7
lemma perfInv_decay (p : Performance) (hp : PerfInv p) : PerfInv p.decay := by
  obtain ⟨h1, h2, h3, h4, h5, h6, h7⟩ := hp
  have hr : (0:ℚ) ≤ 1 - SLOW_DECAY_HZ := by norm_num [SLOW_DECAY_HZ]
  have hrf : (0:ℚ) ≤ 1 - FAST_DECAY_HZ := by norm_num [FAST_DECAY_HZ]
  refine ⟨?_, ?_, ?_, ?_, ?_, ?_, ?_⟩
  · exact mul_nonneg h1 hrf
  · exact mul_nonneg h2 hrf
  · exact mul_nonneg h3 hrf
  · intro x hx
    obtain ⟨y, hy, rfl⟩ := List.mem_map.mp hx
    exact mul_nonneg (h4 y hy) hr
  · exact mul_nonneg h5 hr
  · show p.slow.failureCount * (1 - SLOW_DECAY_HZ)
        ≤ (p.slow.latencyHist.map (fun c => c * (1 - SLOW_DECAY_HZ))).sum
    rw [sum_map_mul]
    exact mul_le_mul_of_nonneg_right h6 hr
  · show (p.slow.latencyHist.map _).length = 29
    rw [List.length_map]
    exact h7

lemma perfInv_applyOps (ops : List PerfOp) : PerfInv (applyOps ops) := by
  unfold applyOps
  have main : ∀ (l : List PerfOp) (p : Performance), PerfInv p → PerfInv (l.foldl applyOp p) := by
    intro l
    induction l with
    | nil => intro p hp; exact hp
    | cons op t ih =>
      intro p hp
      simp only [List.foldl_cons]
      refine ih _ ?_
      cases op with
      | feedback s lm => exact perfInv_feedback p hp s lm
      | decay => exact perfInv_decay p hp
  exact main ops defaultPerformance perfInv_default

lemma shortTerm_successRate_bounds (st : ShortTerm)
    (h2 : 0 ≤ st.successCount) (h3 : 0 ≤ st.failureCount) :
    0 < st.successRate ∧ st.successRate ≤ 1 := by
  unfold ShortTerm.successRate
  constructor
  · apply div_pos <;> linarith
  · rw [div_le_one (by linarith)]
    linarith

lemma longTerm_successRate_bounds (lt : LongTerm)
    (h5 : 0 ≤ lt.failureCount) (h6 : lt.failureCount ≤ lt.latencyHist.sum) :
    0 < lt.successRate ∧ lt.successRate ≤ 1 := by
  unfold LongTerm.successRate
  constructor
  · apply div_pos <;> linarith
  · rw [div_le_one (by linarith)]
    linarith

/-- C8: after any finite sequence of `feedback` and `decay` operations on a
fresh tracker, `success_rate()` lies in (0, 0.99]: both accumulators report a
rate in (0, 1] thanks to the +1 smoothing and the failures-never-exceed-total
invariant, and the biased combination is capped at 0.99. -/
theorem claim_C8_success_rate_bounds (ops : List PerfOp) :
    0 < (applyOps ops).successRate ∧ (applyOps ops).successRate ≤ 99/100 := by
  obtain ⟨h1, h2, h3, h4, h5, h6, h7⟩ := perfInv_applyOps ops
  obtain ⟨hf1, hf2⟩ := shortTerm_successRate_bounds _ h2 h3
  obtain ⟨hs1, hs2⟩ := longTerm_successRate_bounds _ h5 h6
  unfold Performance.successRate
  constructor
  · apply lt_min
    · norm_num [FAST_BIAS]
      linarith
    · norm_num
  · exact min_le_right _ _

/-- One counter's behavior across a decay tick: zero stays zero, a positive
value strictly decreases. -/
def StrictlyDecays (a b : ℚ) : Prop :=
  (a = 0 → b = 0) ∧ (0 < a → b < a)

lemma strictlyDecays_mul (a r : ℚ) (hr0 : 0 < r) (hr1 : r < 1) :
    StrictlyDecays a (a * r) := by
  constructor
  · intro h
    rw [h, zero_mul]
  · intro h
    nlinarith

/-- C9: if no feedback is issued between two consecutive `decay()` calls,
every counter of both accumulators (the fast accumulator's three counters,
the slow accumulator's failure count and each of its 29 histogram bins)
strictly decreases across the second `decay()` unless it is already 0, in
which case it stays 0. -/
theorem claim_C9_decay_strict (ops : List PerfOp) :
    StrictlyDecays (Performance.decay (applyOps ops)).fast.totalLatencyMs
      ((Performance.decay (applyOps ops)).decay).fast.totalLatencyMs ∧
    StrictlyDecays (Performance.decay (applyOps ops)).fast.successCount
      ((Performance.decay (applyOps ops)).decay).fast.successCount ∧
    StrictlyDecays (Performance.decay (applyOps ops)).fast.failureCount
      ((Performance.decay (applyOps ops)).decay).fast.failureCount ∧
    StrictlyDecays (Performance.decay (applyOps ops)).slow.failureCount
      ((Performance.decay (applyOps ops)).decay).slow.failureCount ∧
    ∀ i, i < 29 →
      StrictlyDecays ((Performance.decay (applyOps ops)).slow.latencyHist.getD i 0)
        (((Performance.decay (applyOps ops)).decay).slow.latencyHist.getD i 0) := by
  have hf0 : (0:ℚ) < 1 - FAST_DECAY_HZ := by norm_num [FAST_DECAY_HZ]
  have hf1 : (1:ℚ) - FAST_DECAY_HZ < 1 := by norm_num [FAST_DECAY_HZ]
  have hs0 : (0:ℚ) < 1 - SLOW_DECAY_HZ := by norm_num [SLOW_DECAY_HZ]
  have hs1 : (1:ℚ) - SLOW_DECAY_HZ < 1 := by norm_num [SLOW_DECAY_HZ]
  refine ⟨strictlyDecays_mul _ _ hf0 hf1, strictlyDecays_mul _ _ hf0 hf1,
    strictlyDecays_mul _ _ hf0 hf1, strictlyDecays_mul _ _ hs0 hs1, ?_⟩
  intro i hi
  have hmap : (((Performance.decay (applyOps ops)).decay).slow.latencyHist).getD i 0
      = ((Performance.decay (applyOps ops)).slow.latencyHist).getD i 0 * (1 - SLOW_DECAY_HZ) :=
    getD_map_mul _ _ i
  rw [hmap]
  exact strictlyDecays_mul _ _ hs0 hs1

/-! ## Normalized constructor
Embedding of `Normalized::new` (`candidate-selection/src/num.rs` and
`src/normalized.rs`): a light model of f64 at the granularity the constructor
observes — numeric value, IEEE sign bit, NaN-ness. -/

/-- An f64 as `Normalized::new` observes it. -/
structure F64 where
  val : ℚ
  signNegative : Bool
  isNaN : Bool
deriving DecidableEq, Repr

/-- IEEE negative zero: numeric value 0, sign bit set. -/
def negZero : F64 := ⟨0, true, false⟩

/-- IEEE positive zero. -/
def posZero : F64 := ⟨0, false, false⟩

/-- `Normalized::new`: `NotNan::new` rejects NaN, then the constructor
rejects when `value.is_sign_negative() || *value > 1.0`. -/
def Normalized.new (x : F64) : Option ℚ :=
  if x.isNaN then none
  else if x.signNegative || decide (x.val > 1) then none
  else some x.val

/-- C10: `Normalized::new(-0.0)` returns `None`: the constructor rejects by
the sign bit, so an input that compares equal to 0.0 and lies numerically in
[0, 1] is rejected, while `Normalized::new(0.0)` is accepted. -/
theorem claim_C10_neg_zero_rejected :
    Normalized.new negZero = none ∧ negZero.val = 0 ∧
    0 ≤ negZero.val ∧ negZero.val ≤ 1 ∧ Normalized.new posZero = some 0 := by
  refine ⟨rfl, rfl, le_refl 0, ?_, ?_⟩
  · norm_num [negZero]
  · norm_num [Normalized.new, posZero]
